import Mathlib

/-!
Verification development for the spatial-transform algebra library
`omnigibson/utils/transform_utils.py`.

The Python source operates on torch tensors; every function treated here is a
pure numeric procedure, so we embed it as a function over an ordered field
(instantiated at `ℚ` for executable witnesses and at `ℝ` whenever the source
uses `sqrt`, `sin`, `cos`, `acos`, `asin`, `atan2` or `tan`).  Batch
dimensions (`reshape(-1, 4)` and friends) are shape plumbing only — each batch
element is processed independently — so functions are embedded at batch size
one, per element.  Quaternions follow the source convention `(x, y, z, w)`.
-/

open Matrix

set_option maxHeartbeats 1600000

abbrev Mat3 (K : Type) : Type := Matrix (Fin 3) (Fin 3) K

abbrev Mat4 (K : Type) : Type := Matrix (Fin 4) (Fin 4) K

/-- Quaternion value in the source order `(x, y, z, w)`. -/
structure Quat (K : Type) where
  x : K
  y : K
  z : K
  w : K
deriving DecidableEq

namespace Quat

variable {K : Type} [LinearOrderedField K]

instance : Neg (Quat K) :=
  ⟨fun q => ⟨-q.x, -q.y, -q.z, -q.w⟩⟩

instance : SMul K (Quat K) :=
  ⟨fun c q => ⟨c * q.x, c * q.y, c * q.z, c * q.w⟩⟩

theorem neg_def (q : Quat K) : -q = ⟨-q.x, -q.y, -q.z, -q.w⟩ := rfl

theorem smul_def (c : K) (q : Quat K) : c • q = ⟨c * q.x, c * q.y, c * q.z, c * q.w⟩ := rfl

end Quat

section GenericDefs

variable {K : Type} [LinearOrderedField K]

/-- Squared L2 norm of a quaternion (the `n = q · q` of `quat2mat`). -/
def quatSqNorm (q : Quat K) : K :=
  q.x * q.x + q.y * q.y + q.z * q.z + q.w * q.w

/-- `quat_multiply(quaternion1, quaternion0)`: Hamilton product `q1 * q0`,
components exactly as in the source. -/
def quat_multiply (q1 q0 : Quat K) : Quat K :=
  ⟨q1.x * q0.w + q1.y * q0.z - q1.z * q0.y + q1.w * q0.x,
   -q1.x * q0.z + q1.y * q0.w + q1.z * q0.x + q1.w * q0.y,
   q1.x * q0.y - q1.y * q0.x + q1.z * q0.w + q1.w * q0.z,
   -q1.x * q0.x - q1.y * q0.y - q1.z * q0.z + q1.w * q0.w⟩

/-- `quat_mul(a, b)`: the factored Hamilton product used by
`get_orientation_error`, with the `ww/yy/zz/xx/qq` intermediate terms of the
source. -/
def quat_mul (a b : Quat K) : Quat K :=
  let ww := (a.z + a.x) * (b.x + b.y)
  let yy := (a.w - a.y) * (b.w + b.z)
  let zz := (a.w + a.y) * (b.w - b.z)
  let xx := ww + yy + zz
  let qq := (1 / 2) * (xx + (a.z - a.x) * (b.x - b.y))
  ⟨qq - xx + (a.x + a.w) * (b.x + b.w),
   qq - yy + (a.w - a.x) * (b.y + b.z),
   qq - zz + (a.z + a.y) * (b.w - b.x),
   qq - ww + (a.z - a.y) * (b.y - b.z)⟩

/-- `quat_conjugate(quaternion)`. -/
def quat_conjugate (q : Quat K) : Quat K :=
  ⟨-q.x, -q.y, -q.z, q.w⟩

/-- `th.sign`: `1` on positives, `-1` on negatives, `0` at zero. -/
def sgn (v : K) : K :=
  if 0 < v then 1 else if v < 0 then -1 else 0

/-- `get_orientation_error(desired, current)`: vector part of
`quat_mul(desired, conj(current))` multiplied by the sign of its scalar part. -/
def get_orientation_error (desired current : Quat K) : Fin 3 → K :=
  let q_r := quat_mul desired (quat_conjugate current)
  ![q_r.x * sgn q_r.w, q_r.y * sgn q_r.w, q_r.z * sgn q_r.w]

/-- `quat2mat(quaternion)`: rows with `q` reindexed to `(w,x,y,z)` and outer
products `q2[a][b] = 2 q_a q_b / n`; rows whose squared norm `n` is zero stay
at the identity. -/
def quat2mat [DecidableEq K] (q : Quat K) : Mat3 K :=
  let n := quatSqNorm q
  if n = 0 then 1
  else
    !![1 - 2 * q.y * q.y / n - 2 * q.z * q.z / n,
       2 * q.x * q.y / n - 2 * q.z * q.w / n,
       2 * q.x * q.z / n + 2 * q.y * q.w / n;
       2 * q.x * q.y / n + 2 * q.z * q.w / n,
       1 - 2 * q.x * q.x / n - 2 * q.z * q.z / n,
       2 * q.y * q.z / n - 2 * q.x * q.w / n;
       2 * q.x * q.z / n - 2 * q.y * q.w / n,
       2 * q.y * q.z / n + 2 * q.x * q.w / n,
       1 - 2 * q.x * q.x / n - 2 * q.y * q.y / n]

/-- `pose2mat((pos, orn))`: homogeneous matrix with rotation block
`quat2mat(orn)` and translation column `pos`. -/
def pose2mat [DecidableEq K] (pos : Fin 3 → K) (orn : Quat K) : Mat4 K :=
  let R := quat2mat orn
  !![R 0 0, R 0 1, R 0 2, pos 0;
     R 1 0, R 1 1, R 1 2, pos 1;
     R 2 0, R 2 1, R 2 2, pos 2;
     0, 0, 0, 1]

/-- Top-left `3×3` rotation block `pose_mat[:3,:3]`. -/
def rotBlock (P : Mat4 K) : Mat3 K :=
  !![P 0 0, P 0 1, P 0 2; P 1 0, P 1 1, P 1 2; P 2 0, P 2 1, P 2 2]

/-- Translation column `pose_mat[:3,3]`. -/
def transBlock (P : Mat4 K) : Fin 3 → K :=
  ![P 0 3, P 1 3, P 2 3]

/-- `pose_inv(pose_mat)`: rigid inverse `[Rᵀ, -Rᵀ·t; 0 1]`, written entrywise
exactly as the source assembles it. -/
def pose_inv (P : Mat4 K) : Mat4 K :=
  !![P 0 0, P 1 0, P 2 0, -(P 0 0 * P 0 3 + P 1 0 * P 1 3 + P 2 0 * P 2 3);
     P 0 1, P 1 1, P 2 1, -(P 0 1 * P 0 3 + P 1 1 * P 1 3 + P 2 1 * P 2 3);
     P 0 2, P 1 2, P 2 2, -(P 0 2 * P 0 3 + P 1 2 * P 1 3 + P 2 2 * P 2 3);
     0, 0, 0, 1]

/-- `_skew_symmetric_translation(pos_A_in_B)`. -/
def _skew_symmetric_translation (t : Fin 3 → K) : Mat3 K :=
  !![0, -t 2, t 1;
     t 2, 0, -t 0;
     -t 1, t 0, 0]

/-- `vel_in_A_to_vel_in_B(vel_A, ang_vel_A, pose_A_in_B)`:
`v_B = R·v_A + skew(t)·R·ω_A`, `ω_B = R·ω_A`. -/
def vel_in_A_to_vel_in_B (vel_A ang_vel_A : Fin 3 → K) (pose_A_in_B : Mat4 K) :
    (Fin 3 → K) × (Fin 3 → K) :=
  let pos_A_in_B := transBlock pose_A_in_B
  let rot_A_in_B := rotBlock pose_A_in_B
  let skew_symm := _skew_symmetric_translation pos_A_in_B
  (rot_A_in_B.mulVec vel_A + skew_symm.mulVec (rot_A_in_B.mulVec ang_vel_A),
   rot_A_in_B.mulVec ang_vel_A)

end GenericDefs

section PoseAlgebra

variable {K : Type} [LinearOrderedField K]

theorem rotBlock_pose_inv (P : Mat4 K) : rotBlock (pose_inv P) = (rotBlock P)ᵀ := by
  ext i j
  fin_cases i <;> fin_cases j <;>
    simp [rotBlock, pose_inv, Matrix.transpose_apply]

theorem transBlock_pose_inv (P : Mat4 K) :
    transBlock (pose_inv P) = -((rotBlock P)ᵀ.mulVec (transBlock P)) := by
  funext i
  simp only [Pi.neg_apply, Matrix.mulVec, dotProduct, Fin.sum_univ_three,
    Matrix.transpose_apply]
  fin_cases i <;> simp [transBlock, rotBlock, pose_inv]

theorem skew_neg (u : Fin 3 → K) :
    _skew_symmetric_translation (-u) = -(_skew_symmetric_translation u) := by
  ext i j
  fin_cases i <;> fin_cases j <;> simp [_skew_symmetric_translation]

theorem skew_conj (M : Mat3 K) (u : Fin 3 → K) :
    Mᵀ * _skew_symmetric_translation (M.mulVec u) * M =
      M.det • _skew_symmetric_translation u := by
  ext i j
  fin_cases i <;> fin_cases j <;>
    simp [_skew_symmetric_translation, Matrix.mul_apply, Matrix.mulVec,
      Matrix.det_fin_three, dotProduct, Fin.sum_univ_three,
      Matrix.transpose_apply] <;> ring

end PoseAlgebra

/-- C3: for every pose `P` whose top-left `3×3` block is orthonormal with
determinant `+1` and whose bottom row is `(0,0,0,1)`, the product
`pose_inv(P) @ P` is exactly the `4×4` identity (hence within any numerical
tolerance). -/
theorem C3_pose_inv_left_inverse {K : Type} [LinearOrderedField K] (P : Mat4 K)
    (hR : (rotBlock P)ᵀ * rotBlock P = 1) (hdet : (rotBlock P).det = 1)
    (h30 : P 3 0 = 0) (h31 : P 3 1 = 0) (h32 : P 3 2 = 0) (h33 : P 3 3 = 1) :
    pose_inv P * P = 1 := by
  have e : ∀ i j : Fin 3,
      ((rotBlock P)ᵀ * rotBlock P) i j = (1 : Mat3 K) i j := fun i j => by
    rw [hR]
  have e00 : P 0 0 * P 0 0 + P 1 0 * P 1 0 + P 2 0 * P 2 0 = 1 := by
    simpa [rotBlock, Matrix.mul_apply, Fin.sum_univ_three] using e 0 0
  have e01 : P 0 0 * P 0 1 + P 1 0 * P 1 1 + P 2 0 * P 2 1 = 0 := by
    simpa [rotBlock, Matrix.mul_apply, Fin.sum_univ_three] using e 0 1
  have e02 : P 0 0 * P 0 2 + P 1 0 * P 1 2 + P 2 0 * P 2 2 = 0 := by
    simpa [rotBlock, Matrix.mul_apply, Fin.sum_univ_three] using e 0 2
  have e10 : P 0 1 * P 0 0 + P 1 1 * P 1 0 + P 2 1 * P 2 0 = 0 := by
    simpa [rotBlock, Matrix.mul_apply, Fin.sum_univ_three] using e 1 0
  have e11 : P 0 1 * P 0 1 + P 1 1 * P 1 1 + P 2 1 * P 2 1 = 1 := by
    simpa [rotBlock, Matrix.mul_apply, Fin.sum_univ_three] using e 1 1
  have e12 : P 0 1 * P 0 2 + P 1 1 * P 1 2 + P 2 1 * P 2 2 = 0 := by
    simpa [rotBlock, Matrix.mul_apply, Fin.sum_univ_three] using e 1 2
  have e20 : P 0 2 * P 0 0 + P 1 2 * P 1 0 + P 2 2 * P 2 0 = 0 := by
    simpa [rotBlock, Matrix.mul_apply, Fin.sum_univ_three] using e 2 0
  have e21 : P 0 2 * P 0 1 + P 1 2 * P 1 1 + P 2 2 * P 2 1 = 0 := by
    simpa [rotBlock, Matrix.mul_apply, Fin.sum_univ_three] using e 2 1
  have e22 : P 0 2 * P 0 2 + P 1 2 * P 1 2 + P 2 2 * P 2 2 = 1 := by
    simpa [rotBlock, Matrix.mul_apply, Fin.sum_univ_three] using e 2 2
  ext i j
  fin_cases i <;> fin_cases j <;>
    simp [pose_inv, Matrix.mul_apply, Fin.sum_univ_four, Matrix.one_apply,
      h30, h31, h32, h33] <;>
  first
  | rfl
  | linear_combination e00
  | linear_combination e01
  | linear_combination e02
  | linear_combination e10
  | linear_combination e11
  | linear_combination e12
  | linear_combination e20
  | linear_combination e21
  | linear_combination e22
  | ring

/-- C3 witness: the identity pose satisfies all hypotheses, and
`pose_inv(I) @ I = I`. -/
theorem C3_pose_inv_left_inverse_witness :
    ((rotBlock (1 : Mat4 ℚ))ᵀ * rotBlock 1 = 1) ∧ ((rotBlock (1 : Mat4 ℚ)).det = 1) ∧
      pose_inv (1 : Mat4 ℚ) * 1 = 1 := by
  have hrb : rotBlock (1 : Mat4 ℚ) = 1 := by
    ext i j
    fin_cases i <;> fin_cases j <;>
      simp [rotBlock, Matrix.one_apply, Matrix.vecHead, Matrix.vecTail]
  have hR : (rotBlock (1 : Mat4 ℚ))ᵀ * rotBlock 1 = 1 := by
    rw [hrb]; simp
  have hdet : (rotBlock (1 : Mat4 ℚ)).det = 1 := by rw [hrb]; simp
  refine ⟨hR, hdet, ?_⟩
  exact C3_pose_inv_left_inverse 1 hR hdet (by simp [Matrix.one_apply])
    (by simp [Matrix.one_apply]) (by simp [Matrix.one_apply]) rfl

/-- C4: velocity transform round trip.  For any linear velocity `v`, angular
velocity `w` and rigid pose `P` (orthonormal rotation block of determinant
`+1`), mapping through `vel_in_A_to_vel_in_B` with `pose_inv(P)` and then with
`P` recovers `(v, w)` exactly. -/
theorem C4_vel_round_trip {K : Type} [LinearOrderedField K]
    (v w : Fin 3 → K) (P : Mat4 K)
    (hR : (rotBlock P)ᵀ * rotBlock P = 1) (hdet : (rotBlock P).det = 1) :
    vel_in_A_to_vel_in_B (vel_in_A_to_vel_in_B v w (pose_inv P)).1
      (vel_in_A_to_vel_in_B v w (pose_inv P)).2 P = (v, w) := by
  set R := rotBlock P with hRdef
  set t := transBlock P with htdef
  have hRRt : R * Rᵀ = 1 := Matrix.mul_eq_one_comm.mp hR
  have hconj : R * _skew_symmetric_translation (Rᵀ.mulVec (-t)) * Rᵀ =
      -(_skew_symmetric_translation t) := by
    have h := skew_conj Rᵀ (-t)
    rw [Matrix.transpose_transpose, Matrix.det_transpose, hdet, one_smul] at h
    rw [h, skew_neg]
  simp only [vel_in_A_to_vel_in_B, rotBlock_pose_inv, transBlock_pose_inv,
    ← hRdef, ← htdef]
  rw [Prod.mk.injEq]
  constructor
  · -- linear part
    have hmv : ∀ u : Fin 3 → K, R.mulVec (Rᵀ.mulVec u) = u := by
      intro u
      rw [Matrix.mulVec_mulVec, hRRt, Matrix.one_mulVec]
    rw [show -(Rᵀ.mulVec t) = Rᵀ.mulVec (-t) by rw [Matrix.mulVec_neg]]
    rw [Matrix.mulVec_add, hmv, hmv]
    rw [Matrix.mulVec_mulVec, Matrix.mulVec_mulVec]
    rw [hconj, Matrix.neg_mulVec]
    abel
  · -- angular part
    rw [Matrix.mulVec_mulVec, hRRt, Matrix.one_mulVec]

/-- C4 witness: concrete round trip at the identity pose. -/
theorem C4_vel_round_trip_witness :
    ((rotBlock (1 : Mat4 ℚ))ᵀ * rotBlock 1 = 1) ∧ ((rotBlock (1 : Mat4 ℚ)).det = 1) ∧
      vel_in_A_to_vel_in_B
        (vel_in_A_to_vel_in_B ![1, 2, 3] ![4, 5, 6] (pose_inv 1)).1
        (vel_in_A_to_vel_in_B ![1, 2, 3] ![4, 5, 6] (pose_inv 1)).2 (1 : Mat4 ℚ) =
        (![1, 2, 3], ![4, 5, 6]) := by
  have hrb : rotBlock (1 : Mat4 ℚ) = 1 := by
    ext i j
    fin_cases i <;> fin_cases j <;>
      simp [rotBlock, Matrix.one_apply, Matrix.vecHead, Matrix.vecTail]
  have hR : (rotBlock (1 : Mat4 ℚ))ᵀ * rotBlock 1 = 1 := by rw [hrb]; simp
  have hdet : (rotBlock (1 : Mat4 ℚ)).det = 1 := by rw [hrb]; simp
  exact ⟨hR, hdet, C4_vel_round_trip ![1, 2, 3] ![4, 5, 6] 1 hR hdet⟩

/-- C10: if the scalar component of `quat_mul(desired, conj(current))` is
exactly zero (a 180-degree orientation error), `get_orientation_error` returns
the zero vector, because the shortest-path factor `sign(0) = 0` annihilates
the vector part. -/
theorem C10_orientation_error_sign_zero {K : Type} [LinearOrderedField K]
    (desired current : Quat K)
    (hud : quatSqNorm desired = 1) (huc : quatSqNorm current = 1)
    (hw : (quat_mul desired (quat_conjugate current)).w = 0) :
    get_orientation_error desired current = ![0, 0, 0] := by
  funext i
  fin_cases i <;>
    simp [get_orientation_error, hw, sgn]

/-- C10 witness: `desired = (1,0,0,0)` (a 180° rotation about x) against
`current = (0,0,0,1)` has error quaternion with zero scalar part, and the
returned error vector is zero. -/
theorem C10_orientation_error_sign_zero_witness :
    quatSqNorm (⟨1, 0, 0, 0⟩ : Quat ℚ) = 1 ∧ quatSqNorm (⟨0, 0, 0, 1⟩ : Quat ℚ) = 1 ∧
      (quat_mul (⟨1, 0, 0, 0⟩ : Quat ℚ) (quat_conjugate ⟨0, 0, 0, 1⟩)).w = 0 ∧
      get_orientation_error (⟨1, 0, 0, 0⟩ : Quat ℚ) ⟨0, 0, 0, 1⟩ = ![0, 0, 0] := by
  have h1 : quatSqNorm (⟨1, 0, 0, 0⟩ : Quat ℚ) = 1 := by norm_num [quatSqNorm]
  have h2 : quatSqNorm (⟨0, 0, 0, 1⟩ : Quat ℚ) = 1 := by norm_num [quatSqNorm]
  have h3 : (quat_mul (⟨1, 0, 0, 0⟩ : Quat ℚ) (quat_conjugate ⟨0, 0, 0, 1⟩)).w = 0 := by
    norm_num [quat_mul, quat_conjugate]
  exact ⟨h1, h2, h3, C10_orientation_error_sign_zero _ _ h1 h2 h3⟩

section Ewma

variable {K : Type} [LinearOrderedField K] [DecidableEq K]

/-- `ewma_vectorized(data, alpha, offset)` on a length-`n` sequence: the
cumulative-sum reformulation of the source, element `i` being
`cumsum(data * alpha * s[n-1] / s[k])[i] / s[n-1-i] (+ offset * s[i+1])`
with `s[j] = (1-alpha)^j`; the offset term is added only when the (defaulted)
offset is nonzero, exactly as in the source. -/
def ewma_vectorized (data : ℕ → K) (n : ℕ) (alpha : K) (offset : Option K) :
    ℕ → K := fun i =>
  let off : K := offset.getD (data 0)
  let cums : K :=
    ∑ k ∈ Finset.range (i + 1), data k * (alpha * (1 - alpha) ^ (n - 1)) / (1 - alpha) ^ k
  let base : K := cums / (1 - alpha) ^ (n - 1 - i)
  if off = 0 then base else base + off * (1 - alpha) ^ (i + 1)

/-- Closed form of the cumulative-sum reformulation. -/
theorem ewma_vectorized_closed (data : ℕ → K) (n : ℕ) (alpha : K) (offset : Option K)
    (h1 : alpha < 1) (i : ℕ) (hi : i < n) :
    ewma_vectorized data n alpha offset i =
      offset.getD (data 0) * (1 - alpha) ^ (i + 1) +
        ∑ k ∈ Finset.range (i + 1), alpha * (1 - alpha) ^ (i - k) * data k := by
  have hc : (1 - alpha) ≠ 0 := by
    have : (0 : K) < 1 - alpha := by linarith
    exact ne_of_gt this
  set off := offset.getD (data 0) with hoff
  have hbase :
      (∑ k ∈ Finset.range (i + 1),
          data k * (alpha * (1 - alpha) ^ (n - 1)) / (1 - alpha) ^ k) /
        (1 - alpha) ^ (n - 1 - i) =
      ∑ k ∈ Finset.range (i + 1), alpha * (1 - alpha) ^ (i - k) * data k := by
    rw [Finset.sum_div]
    refine Finset.sum_congr rfl ?_
    intro k hk
    have hk' : k ≤ i := Nat.lt_succ_iff.mp (Finset.mem_range.mp hk)
    have hsplit : n - 1 = (i - k) + k + (n - 1 - i) := by omega
    rw [hsplit, pow_add, pow_add]
    field_simp
    ring
  unfold ewma_vectorized
  simp only [← hoff]
  by_cases h0 : off = 0
  · rw [if_pos h0, hbase, h0]
    ring
  · rw [if_neg h0, hbase]
    ring

end Ewma

/-- The exponential-moving-average recurrence as the spec states it:
`out[i] = alpha*data[i] + (1-alpha)*prev` with `prev = offset` at `i = 0`
and `prev = out[i-1]` afterwards (spec-side reference definition for the
refinement claim C8). -/
def ewma_spec_rec {K : Type} [LinearOrderedField K] (data : ℕ → K) (alpha : K)
    (off : K) : ℕ → K
  | 0 => alpha * data 0 + (1 - alpha) * off
  | i + 1 => alpha * data (i + 1) + (1 - alpha) * ewma_spec_rec data alpha off i

/-- C8: for every data sequence of length `n`, every `alpha ∈ (0,1)` and every
(possibly defaulted) offset, the cumulative-sum reformulation agrees with the
standard EWMA recurrence at every index `i < n`, and with the default offset
the first output equals `data[0]`. -/
theorem C8_ewma_recurrence {K : Type} [LinearOrderedField K] [DecidableEq K]
    (data : ℕ → K) (n : ℕ) (alpha : K) (offset : Option K)
    (h0 : 0 < alpha) (h1 : alpha < 1) :
    (∀ i, i < n →
        ewma_vectorized data n alpha offset i =
          ewma_spec_rec data alpha (offset.getD (data 0)) i) ∧
      (0 < n → ewma_vectorized data n alpha none 0 = data 0) := by
  constructor
  · intro i
    induction i with
    | zero =>
      intro hi
      rw [ewma_vectorized_closed data n alpha offset h1 0 hi]
      simp [ewma_spec_rec]
      ring
    | succ j ih =>
      intro hi
      have hj : j < n := Nat.lt_of_succ_lt hi
      rw [ewma_vectorized_closed data n alpha offset h1 (j + 1) hi,
        ewma_spec_rec, ← ih hj,
        ewma_vectorized_closed data n alpha offset h1 j hj]
      rw [Finset.sum_range_succ]
      have hshift :
          ∑ k ∈ Finset.range (j + 1), alpha * (1 - alpha) ^ (j + 1 - k) * data k =
            (1 - alpha) * ∑ k ∈ Finset.range (j + 1), alpha * (1 - alpha) ^ (j - k) * data k := by
        rw [Finset.mul_sum]
        refine Finset.sum_congr rfl ?_
        intro k hk
        have hk' : k ≤ j := Nat.lt_succ_iff.mp (Finset.mem_range.mp hk)
        rw [show j + 1 - k = (j - k) + 1 by omega, pow_succ]
        ring
      rw [hshift]
      simp only [Nat.sub_self, pow_zero]
      ring
  · intro hn
    rw [ewma_vectorized_closed data n alpha none h1 0 hn]
    simp
    ring

/-- C8 witness: concrete instance at `data k = k + 1`, `alpha = 1/2`,
offset `3`, index `0`. -/
theorem C8_ewma_recurrence_witness :
    (0 : ℚ) < 1 / 2 ∧ (1 / 2 : ℚ) < 1 ∧ (0 : ℕ) < 2 ∧
      ewma_vectorized (fun k => (k : ℚ) + 1) 2 (1 / 2) (some 3) 0 =
        1 / 2 * ((0 : ℚ) + 1) + (1 - 1 / 2) * 3 := by
  refine ⟨by norm_num, by norm_num, by norm_num, ?_⟩
  have h := (C8_ewma_recurrence (fun k => (k : ℚ) + 1) 2 (1 / 2) (some 3)
    (by norm_num) (by norm_num)).1 0 (by norm_num)
  rw [h]
  norm_num [ewma_spec_rec]

section RealDefs

/-- The `th.allclose(rmat, identity, atol=1e-6)` guard of `mat2quat`
(default relative tolerance `1e-5`):
`|rmat[i][j] - I[i][j]| <= 1e-6 + 1e-5 * |I[i][j]|` for all entries. -/
def allclose_identity (rmat : Mat3 ℝ) : Prop :=
  ∀ i j : Fin 3, |rmat i j - (1 : Mat3 ℝ) i j| ≤ 1e-6 + 1e-5 * |(1 : Mat3 ℝ) i j|

/-- Final normalization `quat / th.norm(quat)` of `mat2quat`. -/
noncomputable def quatNormalize (b : Quat ℝ) : Quat ℝ :=
  ⟨b.x / Real.sqrt (quatSqNorm b), b.y / Real.sqrt (quatSqNorm b),
   b.z / Real.sqrt (quatSqNorm b), b.w / Real.sqrt (quatSqNorm b)⟩

open Classical in
/-- The branch part of `mat2quat(rmat)`: identity snap when `rmat` is
`allclose` to the identity, then the trace test, then the three
largest-diagonal branches, with `s = 2*sqrt(...)` exactly as in the source. -/
noncomputable def mat2quat_base (rmat : Mat3 ℝ) : Quat ℝ :=
  if allclose_identity rmat then ⟨0, 0, 0, 1⟩
  else if 0 < rmat 0 0 + rmat 1 1 + rmat 2 2 then
    ⟨(rmat 2 1 - rmat 1 2) / (2 * Real.sqrt (rmat 0 0 + rmat 1 1 + rmat 2 2 + 1)),
     (rmat 0 2 - rmat 2 0) / (2 * Real.sqrt (rmat 0 0 + rmat 1 1 + rmat 2 2 + 1)),
     (rmat 1 0 - rmat 0 1) / (2 * Real.sqrt (rmat 0 0 + rmat 1 1 + rmat 2 2 + 1)),
     2 * Real.sqrt (rmat 0 0 + rmat 1 1 + rmat 2 2 + 1) / 4⟩
  else if rmat 1 1 < rmat 0 0 ∧ rmat 2 2 < rmat 0 0 then
    ⟨2 * Real.sqrt (1 + rmat 0 0 - rmat 1 1 - rmat 2 2) / 4,
     (rmat 0 1 + rmat 1 0) / (2 * Real.sqrt (1 + rmat 0 0 - rmat 1 1 - rmat 2 2)),
     (rmat 0 2 + rmat 2 0) / (2 * Real.sqrt (1 + rmat 0 0 - rmat 1 1 - rmat 2 2)),
     (rmat 2 1 - rmat 1 2) / (2 * Real.sqrt (1 + rmat 0 0 - rmat 1 1 - rmat 2 2))⟩
  else if rmat 2 2 < rmat 1 1 then
    ⟨(rmat 0 1 + rmat 1 0) / (2 * Real.sqrt (1 + rmat 1 1 - rmat 0 0 - rmat 2 2)),
     2 * Real.sqrt (1 + rmat 1 1 - rmat 0 0 - rmat 2 2) / 4,
     (rmat 1 2 + rmat 2 1) / (2 * Real.sqrt (1 + rmat 1 1 - rmat 0 0 - rmat 2 2)),
     (rmat 0 2 - rmat 2 0) / (2 * Real.sqrt (1 + rmat 1 1 - rmat 0 0 - rmat 2 2))⟩
  else
    ⟨(rmat 0 2 + rmat 2 0) / (2 * Real.sqrt (1 + rmat 2 2 - rmat 0 0 - rmat 1 1)),
     (rmat 1 2 + rmat 2 1) / (2 * Real.sqrt (1 + rmat 2 2 - rmat 0 0 - rmat 1 1)),
     2 * Real.sqrt (1 + rmat 2 2 - rmat 0 0 - rmat 1 1) / 4,
     (rmat 1 0 - rmat 0 1) / (2 * Real.sqrt (1 + rmat 2 2 - rmat 0 0 - rmat 1 1))⟩

/-- `mat2quat(rmat)`: stable rotation-matrix-to-quaternion conversion,
normalized before return. -/
noncomputable def mat2quat (rmat : Mat3 ℝ) : Quat ℝ :=
  quatNormalize (mat2quat_base rmat)

/-- `mat2pose(hmat)`: split a homogeneous matrix into `(pos, orn)`. -/
noncomputable def mat2pose (hmat : Mat4 ℝ) : (Fin 3 → ℝ) × Quat ℝ :=
  (transBlock hmat, mat2quat (rotBlock hmat))

/-- `pose_transform(pos1, quat1, pos0, quat0) = mat2pose(mat1 @ mat0)`. -/
noncomputable def pose_transform (pos1 : Fin 3 → ℝ) (quat1 : Quat ℝ)
    (pos0 : Fin 3 → ℝ) (quat0 : Quat ℝ) : (Fin 3 → ℝ) × Quat ℝ :=
  mat2pose (pose2mat pos1 quat1 * pose2mat pos0 quat0)

end RealDefs

section QuatMatLemmas

theorem quat2mat_unit {K : Type} [LinearOrderedField K] [DecidableEq K]
    (q : Quat K) (hq : quatSqNorm q = 1) :
    quat2mat q =
      !![1 - 2 * (q.y * q.y + q.z * q.z), 2 * (q.x * q.y - q.z * q.w),
         2 * (q.x * q.z + q.y * q.w);
         2 * (q.x * q.y + q.z * q.w), 1 - 2 * (q.x * q.x + q.z * q.z),
         2 * (q.y * q.z - q.x * q.w);
         2 * (q.x * q.z - q.y * q.w), 2 * (q.y * q.z + q.x * q.w),
         1 - 2 * (q.x * q.x + q.y * q.y)] := by
  have h1 : quatSqNorm q ≠ 0 := by rw [hq]; exact one_ne_zero
  unfold quat2mat
  rw [if_neg h1]
  ext i j
  fin_cases i <;> fin_cases j <;> simp [hq] <;> ring

theorem quat2mat_neg {K : Type} [LinearOrderedField K] [DecidableEq K] (q : Quat K) :
    quat2mat (-q) = quat2mat q := by
  have hn : quatSqNorm (-q) = quatSqNorm q := by
    rw [Quat.neg_def]
    simp only [quatSqNorm]
    ring
  unfold quat2mat
  rw [Quat.neg_def] at hn ⊢
  simp only [hn]
  by_cases h : quatSqNorm q = 0
  · simp [h]
  · rw [if_neg h, if_neg h]
    ext i j
    fin_cases i <;> fin_cases j <;> simp <;> ring

theorem quat2mat_id : quat2mat (⟨0, 0, 0, 1⟩ : Quat ℝ) = (1 : Mat3 ℝ) := by
  have h1 : quatSqNorm (⟨0, 0, 0, 1⟩ : Quat ℝ) = 1 := by norm_num [quatSqNorm]
  rw [quat2mat_unit _ h1]
  ext i j
  fin_cases i <;> fin_cases j <;> norm_num [Matrix.one_apply, Fin.ext_iff]

theorem quatNormalize_of_unit (b : Quat ℝ) (hb : quatSqNorm b = 1) :
    quatNormalize b = b := by
  unfold quatNormalize
  rw [hb, Real.sqrt_one]
  simp

end QuatMatLemmas

theorem mat2quat_base_quat2mat (q : Quat ℝ) (hq : quatSqNorm q = 1)
    (hid : ¬ allclose_identity (quat2mat q)) :
    mat2quat_base (quat2mat q) = q ∨ mat2quat_base (quat2mat q) = -q := by
  obtain ⟨x, y, z, w⟩ := q
  have hq' : x * x + y * y + z * z + w * w = 1 := by
    simpa [quatSqNorm] using hq
  rw [quat2mat_unit _ hq] at hid ⊢
  dsimp only at hid ⊢
  unfold mat2quat_base
  rw [if_neg hid]
  simp only [Matrix.of_apply, Matrix.cons_val', Matrix.cons_val_zero,
    Matrix.cons_val_one, Matrix.cons_val_two, Matrix.tail_cons, Matrix.head_cons,
    Matrix.head_fin_const, Matrix.empty_val', Matrix.cons_val_fin_one]
  split_ifs with h1 h2 h3
  · -- trace-positive branch: result is sign(w) * q
    have hw2 : 1 < 4 * (w * w) := by nlinarith
    have hwne : w ≠ 0 := by
      intro h0
      rw [h0] at hw2
      norm_num at hw2
    have hsq : Real.sqrt (1 - 2 * (y * y + z * z) + (1 - 2 * (x * x + z * z)) +
        (1 - 2 * (x * x + y * y)) + 1) = 2 * |w| := by
      rw [show 1 - 2 * (y * y + z * z) + (1 - 2 * (x * x + z * z)) +
          (1 - 2 * (x * x + y * y)) + 1 = (2 * |w|) ^ 2 by
        rw [mul_pow, sq_abs]; linear_combination (-4) * hq']
      exact Real.sqrt_sq (by positivity)
    rcases hwne.lt_or_lt with hw | hw
    · right
      rw [hsq, abs_of_neg hw, Quat.neg_def]
      simp only [Quat.mk.injEq]
      refine ⟨?_, ?_, ?_, ?_⟩ <;> field_simp <;> ring
    · left
      rw [hsq, abs_of_pos hw]
      simp only [Quat.mk.injEq]
      refine ⟨?_, ?_, ?_, ?_⟩ <;> field_simp <;> ring
  · -- m00-largest branch: result is sign(x) * q
    obtain ⟨h2a, h2b⟩ := h2
    have hx2 : 1 < 4 * (x * x) := by nlinarith [not_lt.mp h1]
    have hxne : x ≠ 0 := by
      intro h0
      rw [h0] at hx2
      norm_num at hx2
    have hsq : Real.sqrt (1 + (1 - 2 * (y * y + z * z)) - (1 - 2 * (x * x + z * z)) -
        (1 - 2 * (x * x + y * y))) = 2 * |x| := by
      rw [show 1 + (1 - 2 * (y * y + z * z)) - (1 - 2 * (x * x + z * z)) -
          (1 - 2 * (x * x + y * y)) = (2 * |x|) ^ 2 by
        rw [mul_pow, sq_abs]; ring]
      exact Real.sqrt_sq (by positivity)
    rcases hxne.lt_or_lt with hx | hx
    · right
      rw [hsq, abs_of_neg hx, Quat.neg_def]
      simp only [Quat.mk.injEq]
      refine ⟨?_, ?_, ?_, ?_⟩ <;> field_simp <;> ring
    · left
      rw [hsq, abs_of_pos hx]
      simp only [Quat.mk.injEq]
      refine ⟨?_, ?_, ?_, ?_⟩ <;> field_simp <;> ring
  · -- m11-largest branch: result is sign(y) * q
    have hy2 : 1 < 4 * (y * y) := by
      rcases not_and_or.mp h2 with hc | hc
      · nlinarith [not_lt.mp h1, not_lt.mp hc]
      · nlinarith [not_lt.mp h1, not_lt.mp hc]
    have hyne : y ≠ 0 := by
      intro h0
      rw [h0] at hy2
      norm_num at hy2
    have hsq : Real.sqrt (1 + (1 - 2 * (x * x + z * z)) - (1 - 2 * (y * y + z * z)) -
        (1 - 2 * (x * x + y * y))) = 2 * |y| := by
      rw [show 1 + (1 - 2 * (x * x + z * z)) - (1 - 2 * (y * y + z * z)) -
          (1 - 2 * (x * x + y * y)) = (2 * |y|) ^ 2 by
        rw [mul_pow, sq_abs]; ring]
      exact Real.sqrt_sq (by positivity)
    rcases hyne.lt_or_lt with hy | hy
    · right
      rw [hsq, abs_of_neg hy, Quat.neg_def]
      simp only [Quat.mk.injEq]
      refine ⟨?_, ?_, ?_, ?_⟩ <;> field_simp <;> ring
    · left
      rw [hsq, abs_of_pos hy]
      simp only [Quat.mk.injEq]
      refine ⟨?_, ?_, ?_, ?_⟩ <;> field_simp <;> ring
  · -- m22-largest branch: result is sign(z) * q
    have hz2 : 1 ≤ 4 * (z * z) := by
      rcases not_and_or.mp h2 with hc | hc
      · nlinarith [not_lt.mp h1, not_lt.mp hc, not_lt.mp h3]
      · nlinarith [not_lt.mp h1, not_lt.mp hc, not_lt.mp h3]
    have hzne : z ≠ 0 := by
      intro h0
      rw [h0] at hz2
      norm_num at hz2
    have hsq : Real.sqrt (1 + (1 - 2 * (x * x + y * y)) - (1 - 2 * (y * y + z * z)) -
        (1 - 2 * (x * x + z * z))) = 2 * |z| := by
      rw [show 1 + (1 - 2 * (x * x + y * y)) - (1 - 2 * (y * y + z * z)) -
          (1 - 2 * (x * x + z * z)) = (2 * |z|) ^ 2 by
        rw [mul_pow, sq_abs]; ring]
      exact Real.sqrt_sq (by positivity)
    rcases hzne.lt_or_lt with hz | hz
    · right
      rw [hsq, abs_of_neg hz, Quat.neg_def]
      simp only [Quat.mk.injEq]
      refine ⟨?_, ?_, ?_, ?_⟩ <;> field_simp <;> ring
    · left
      rw [hsq, abs_of_pos hz]
      simp only [Quat.mk.injEq]
      refine ⟨?_, ?_, ?_, ?_⟩ <;> field_simp <;> ring

theorem quatSqNorm_neg {K : Type} [LinearOrderedField K] (q : Quat K) :
    quatSqNorm (-q) = quatSqNorm q := by
  rw [Quat.neg_def]
  simp only [quatSqNorm]
  ring

theorem mat2quat_of_allclose (R : Mat3 ℝ) (hid : allclose_identity R) :
    mat2quat R = ⟨0, 0, 0, 1⟩ := by
  unfold mat2quat mat2quat_base
  rw [if_pos hid]
  unfold quatNormalize
  norm_num [quatSqNorm, Real.sqrt_one]

theorem allclose_id_bound (q : Quat ℝ) (hq : quatSqNorm q = 1)
    (hid : allclose_identity (quat2mat q)) (i j : Fin 3) :
    |(1 : Mat3 ℝ) i j - quat2mat q i j| ≤ 1e-5 := by
  obtain ⟨x, y, z, w⟩ := q
  have hq' : x * x + y * y + z * z + w * w = 1 := by
    simpa [quatSqNorm] using hq
  rw [quat2mat_unit _ hq] at hid ⊢
  have g00 := abs_le.mp (hid 0 0)
  have g01 := abs_le.mp (hid 0 1)
  have g02 := abs_le.mp (hid 0 2)
  have g10 := abs_le.mp (hid 1 0)
  have g11 := abs_le.mp (hid 1 1)
  have g12 := abs_le.mp (hid 1 2)
  have g20 := abs_le.mp (hid 2 0)
  have g21 := abs_le.mp (hid 2 1)
  have g22 := abs_le.mp (hid 2 2)
  norm_num [Matrix.one_apply, Fin.ext_iff] at g00 g01 g02 g10 g11 g12 g20 g21 g22
  have hS : x * x + y * y + z * z ≤ 825 / 100000000 := by
    nlinarith [g00.1, g00.2, g11.1, g11.2, g22.1, g22.2]
  have hw2 : 49 / 50 ≤ w * w := by nlinarith [hq', hS]
  have hxwu : x * w ≤ 5 / 10000000 := by nlinarith [g12.1, g21.2]
  have hxwl : -(5 / 10000000) ≤ x * w := by nlinarith [g12.2, g21.1]
  have hywu : y * w ≤ 5 / 10000000 := by nlinarith [g20.1, g02.2]
  have hywl : -(5 / 10000000) ≤ y * w := by nlinarith [g20.2, g02.1]
  have hzwu : z * w ≤ 5 / 10000000 := by nlinarith [g01.1, g10.2]
  have hzwl : -(5 / 10000000) ≤ z * w := by nlinarith [g01.2, g10.1]
  have hx2 : x * x ≤ 1 / 1000000000000 := by
    nlinarith [mul_nonneg (by linarith : (0:ℝ) ≤ 5 / 10000000 - x * w)
        (by linarith : (0:ℝ) ≤ 5 / 10000000 + x * w),
      mul_nonneg (mul_self_nonneg x) (by linarith : (0:ℝ) ≤ w * w - 49 / 50)]
  have hy2 : y * y ≤ 1 / 1000000000000 := by
    nlinarith [mul_nonneg (by linarith : (0:ℝ) ≤ 5 / 10000000 - y * w)
        (by linarith : (0:ℝ) ≤ 5 / 10000000 + y * w),
      mul_nonneg (mul_self_nonneg y) (by linarith : (0:ℝ) ≤ w * w - 49 / 50)]
  have hz2 : z * z ≤ 1 / 1000000000000 := by
    nlinarith [mul_nonneg (by linarith : (0:ℝ) ≤ 5 / 10000000 - z * w)
        (by linarith : (0:ℝ) ≤ 5 / 10000000 + z * w),
      mul_nonneg (mul_self_nonneg z) (by linarith : (0:ℝ) ≤ w * w - 49 / 50)]
  fin_cases i <;> fin_cases j <;>
    rw [abs_le] <;>
    constructor <;>
    norm_num [Matrix.one_apply, Fin.ext_iff] <;>
    linarith [hx2, hy2, hz2, mul_self_nonneg x, mul_self_nonneg y, mul_self_nonneg z,
      g01.1, g01.2, g02.1, g02.2, g10.1, g10.2, g12.1, g12.2, g20.1, g20.2, g21.1, g21.2]

/-- Shared round-trip bound: for every unit quaternion `q`, every entry of
`quat2mat (mat2quat (quat2mat q))` is within `1e-5` of `quat2mat q`. -/
theorem quat2mat_roundtrip_bound (q : Quat ℝ) (hq : quatSqNorm q = 1) (i j : Fin 3) :
    |quat2mat (mat2quat (quat2mat q)) i j - quat2mat q i j| ≤ 1e-5 := by
  by_cases hid : allclose_identity (quat2mat q)
  · rw [mat2quat_of_allclose _ hid, quat2mat_id]
    exact allclose_id_bound q hq hid i j
  · rcases mat2quat_base_quat2mat q hq hid with h | h
    · rw [mat2quat, h, quatNormalize_of_unit _ hq, sub_self, abs_zero]
      norm_num
    · rw [mat2quat, h, quatNormalize_of_unit _ (by rw [quatSqNorm_neg]; exact hq),
        quat2mat_neg, sub_self, abs_zero]
      norm_num

/-- C2: for every unit quaternion `q`, the round trip
`quat2mat(mat2quat(quat2mat(q)))` equals `quat2mat(q)` with every entry within
`1e-5` of the original (exactly equal except when the identity-snap branch of
`mat2quat` fires, where entries agree within about `1e-12`). -/
theorem C2_quat_mat_roundtrip (q : Quat ℝ) (hq : quatSqNorm q = 1) :
    ∀ i j : Fin 3, |quat2mat (mat2quat (quat2mat q)) i j - quat2mat q i j| ≤ 1e-5 :=
  fun i j => quat2mat_roundtrip_bound q hq i j

/-- C2 witness: the identity quaternion is a unit quaternion and satisfies the
round-trip bound. -/
theorem C2_quat_mat_roundtrip_witness :
    quatSqNorm (⟨0, 0, 0, 1⟩ : Quat ℝ) = 1 ∧
      ∀ i j : Fin 3,
        |quat2mat (mat2quat (quat2mat (⟨0, 0, 0, 1⟩ : Quat ℝ))) i j -
          quat2mat (⟨0, 0, 0, 1⟩ : Quat ℝ) i j| ≤ 1e-5 :=
  ⟨by norm_num [quatSqNorm], C2_quat_mat_roundtrip _ (by norm_num [quatSqNorm])⟩

section Homomorphism

variable {K : Type} [LinearOrderedField K]

/-- The unnormalized rotation matrix of a quaternion (`n * quat2mat q`). -/
def Qmat (q : Quat K) : Mat3 K :=
  !![q.w * q.w + q.x * q.x - q.y * q.y - q.z * q.z, 2 * (q.x * q.y - q.z * q.w),
     2 * (q.x * q.z + q.y * q.w);
     2 * (q.x * q.y + q.z * q.w), q.w * q.w - q.x * q.x + q.y * q.y - q.z * q.z,
     2 * (q.y * q.z - q.x * q.w);
     2 * (q.x * q.z - q.y * q.w), 2 * (q.y * q.z + q.x * q.w),
     q.w * q.w - q.x * q.x - q.y * q.y + q.z * q.z]

theorem quat2mat_eq_Qmat [DecidableEq K] (q : Quat K) (hq : quatSqNorm q = 1) :
    quat2mat q = Qmat q := by
  rw [quat2mat_unit q hq]
  have hq' : q.x * q.x + q.y * q.y + q.z * q.z + q.w * q.w = 1 := hq
  ext i j
  fin_cases i <;> fin_cases j <;>
    simp [Qmat] <;> linear_combination (-1 : K) * hq'

theorem Qmat_mul (q1 q0 : Quat K) :
    Qmat (quat_multiply q1 q0) = Qmat q1 * Qmat q0 := by
  ext i j
  fin_cases i <;> fin_cases j <;>
    simp [Qmat, quat_multiply, Matrix.mul_apply, Fin.sum_univ_three] <;> ring

theorem quatSqNorm_multiply (q1 q0 : Quat K) :
    quatSqNorm (quat_multiply q1 q0) = quatSqNorm q1 * quatSqNorm q0 := by
  simp only [quatSqNorm, quat_multiply]
  ring

theorem quat2mat_multiply [DecidableEq K] (q1 q0 : Quat K)
    (h1 : quatSqNorm q1 = 1) (h0 : quatSqNorm q0 = 1) :
    quat2mat (quat_multiply q1 q0) = quat2mat q1 * quat2mat q0 := by
  have hm : quatSqNorm (quat_multiply q1 q0) = 1 := by
    rw [quatSqNorm_multiply, h1, h0, one_mul]
  rw [quat2mat_eq_Qmat _ hm, quat2mat_eq_Qmat _ h1, quat2mat_eq_Qmat _ h0, Qmat_mul]

end Homomorphism

theorem pose_transform_pos (pos1 : Fin 3 → ℝ) (quat1 : Quat ℝ)
    (pos0 : Fin 3 → ℝ) (quat0 : Quat ℝ) :
    (pose_transform pos1 quat1 pos0 quat0).1 = pos1 + (quat2mat quat1).mulVec pos0 := by
  funext i
  simp only [pose_transform, mat2pose, transBlock, Pi.add_apply, Matrix.mulVec,
    dotProduct, Fin.sum_univ_three]
  fin_cases i <;>
    simp [pose2mat, Matrix.mul_apply, Fin.sum_univ_four] <;> ring

theorem rotBlock_pose2mat_mul (pos1 : Fin 3 → ℝ) (quat1 : Quat ℝ)
    (pos0 : Fin 3 → ℝ) (quat0 : Quat ℝ) :
    rotBlock (pose2mat pos1 quat1 * pose2mat pos0 quat0) =
      quat2mat quat1 * quat2mat quat0 := by
  ext i j
  fin_cases i <;> fin_cases j <;>
    simp [rotBlock, pose2mat, Matrix.mul_apply, Fin.sum_univ_four,
      Fin.sum_univ_three] <;> ring

theorem pose_transform_orn (pos1 : Fin 3 → ℝ) (quat1 : Quat ℝ)
    (pos0 : Fin 3 → ℝ) (quat0 : Quat ℝ) :
    (pose_transform pos1 quat1 pos0 quat0).2 =
      mat2quat (quat2mat quat1 * quat2mat quat0) := by
  simp only [pose_transform, mat2pose]
  rw [rotBlock_pose2mat_mul]

/-- C1: frame-hierarchy consistency of `pose_transform`.  For all scene-offset
poses `S = (pS, qS)` and local poses `L = (pL, qL)` with unit orientations,
the composed world position is exactly `pS + R(qS)·pL` and the composed world
rotation matrix matches `R(qS)·R(qL)` entrywise within the library's `1e-5`
conversion tolerance; on the concrete instance of the spec — scene offset
`(10,0,0)` with identity orientation, local pose `(1,1,1)` with identity
orientation — the result is exactly `((11,1,1), (0,0,0,1))`. -/
theorem C1_pose_transform_frame_hierarchy :
    (∀ (pS : Fin 3 → ℝ) (qS : Quat ℝ) (pL : Fin 3 → ℝ) (qL : Quat ℝ),
        quatSqNorm qS = 1 → quatSqNorm qL = 1 →
        (pose_transform pS qS pL qL).1 = pS + (quat2mat qS).mulVec pL ∧
          ∀ i j : Fin 3,
            |quat2mat ((pose_transform pS qS pL qL).2) i j -
              (quat2mat qS * quat2mat qL) i j| ≤ 1e-5) ∧
      pose_transform ![10, 0, 0] ⟨0, 0, 0, 1⟩ ![1, 1, 1] ⟨0, 0, 0, 1⟩ =
        (![11, 1, 1], (⟨0, 0, 0, 1⟩ : Quat ℝ)) := by
  constructor
  · intro pS qS pL qL hS hL
    refine ⟨pose_transform_pos pS qS pL qL, ?_⟩
    intro i j
    have hmul : quat2mat (quat_multiply qS qL) = quat2mat qS * quat2mat qL :=
      quat2mat_multiply qS qL hS hL
    rw [pose_transform_orn, ← hmul]
    exact quat2mat_roundtrip_bound (quat_multiply qS qL)
      (by rw [quatSqNorm_multiply, hS, hL, one_mul]) i j
  · have hM : pose2mat ![(10 : ℝ), 0, 0] ⟨0, 0, 0, 1⟩ * pose2mat ![1, 1, 1] ⟨0, 0, 0, 1⟩ =
        !![1, 0, 0, 11; 0, 1, 0, 1; 0, 0, 1, 1; 0, 0, 0, 1] := by
      ext i j
      fin_cases i <;> fin_cases j <;>
        norm_num [pose2mat, quat2mat_id, Matrix.mul_apply, Fin.sum_univ_four,
          Matrix.one_apply, Fin.ext_iff, Matrix.vecHead, Matrix.vecTail]
    have hrot : rotBlock (!![(1 : ℝ), 0, 0, 11; 0, 1, 0, 1; 0, 0, 1, 1; 0, 0, 0, 1]) =
        (1 : Mat3 ℝ) := by
      ext i j
      fin_cases i <;> fin_cases j <;>
        norm_num [rotBlock, Matrix.one_apply, Fin.ext_iff, Matrix.vecHead,
          Matrix.vecTail]
    have hid1 : allclose_identity (1 : Mat3 ℝ) := by
      intro i j
      rw [sub_self, abs_zero]
      positivity
    simp only [pose_transform, mat2pose, hM, hrot]
    rw [mat2quat_of_allclose _ hid1]
    refine Prod.ext ?_ rfl
    funext i
    fin_cases i <;> norm_num [transBlock, Matrix.vecHead, Matrix.vecTail]

/-- C1 witness: concrete instantiation of the general composition property at
unit orientations. -/
theorem C1_pose_transform_frame_hierarchy_witness :
    quatSqNorm (⟨0, 0, 0, 1⟩ : Quat ℝ) = 1 ∧
      ((pose_transform ![2, 0, 0] ⟨0, 0, 0, 1⟩ ![0, 3, 0] ⟨0, 0, 0, 1⟩).1 =
          ![2, 0, 0] + (quat2mat (⟨0, 0, 0, 1⟩ : Quat ℝ)).mulVec ![0, 3, 0] ∧
        ∀ i j : Fin 3,
          |quat2mat ((pose_transform ![2, 0, 0] ⟨0, 0, 0, 1⟩ ![0, 3, 0] ⟨0, 0, 0, 1⟩).2) i j -
            (quat2mat (⟨0, 0, 0, 1⟩ : Quat ℝ) * quat2mat (⟨0, 0, 0, 1⟩ : Quat ℝ)) i j| ≤ 1e-5) := by
  have h : quatSqNorm (⟨0, 0, 0, 1⟩ : Quat ℝ) = 1 := by norm_num [quatSqNorm]
  exact ⟨h, C1_pose_transform_frame_hierarchy.1 _ _ _ _ h h⟩

section EulerDefs

/-- The jit `copysign(a, b) = |a| * sign(b)` of the source. -/
noncomputable def copysign (a b : ℝ) : ℝ :=
  |a| * sgn b

/-- `th.atan2(y, x)`: four-quadrant arctangent. -/
noncomputable def atan2 (y x : ℝ) : ℝ :=
  if 0 < x then Real.arctan (y / x)
  else if x < 0 then
    (if 0 ≤ y then Real.arctan (y / x) + Real.pi else Real.arctan (y / x) - Real.pi)
  else
    (if 0 < y then Real.pi / 2 else if y < 0 then -(Real.pi / 2) else 0)

/-- Python `%` on torch floats (`th.remainder`): the result takes the sign of
the divisor, `a - m * floor(a / m)`. -/
noncomputable def fmod (a m : ℝ) : ℝ :=
  a - m * ⌊a / m⌋

/-- `quat2euler(q)`: roll/pitch/yaw extraction with gimbal-lock clamp, each
angle reduced modulo `2π`. -/
noncomputable def quat2euler (q : Quat ℝ) : ℝ × ℝ × ℝ :=
  let sinr_cosp := 2 * (q.w * q.x + q.y * q.z)
  let cosr_cosp := q.w * q.w - q.x * q.x - q.y * q.y + q.z * q.z
  let roll := atan2 sinr_cosp cosr_cosp
  let sinp := 2 * (q.w * q.y - q.z * q.x)
  let pitch := if 1 ≤ |sinp| then copysign (Real.pi / 2) sinp else Real.arcsin sinp
  let siny_cosp := 2 * (q.w * q.z + q.x * q.y)
  let cosy_cosp := q.w * q.w + q.x * q.x - q.y * q.y - q.z * q.z
  let yaw := atan2 siny_cosp cosy_cosp
  (fmod roll (2 * Real.pi), fmod pitch (2 * Real.pi), fmod yaw (2 * Real.pi))

end EulerDefs

theorem fmod_nonneg_lt (x m : ℝ) (hm : 0 < m) : 0 ≤ fmod x m ∧ fmod x m < m := by
  unfold fmod
  constructor
  · have h1 : (⌊x / m⌋ : ℝ) ≤ x / m := Int.floor_le _
    have h2 : m * (⌊x / m⌋ : ℝ) ≤ m * (x / m) := mul_le_mul_of_nonneg_left h1 hm.le
    have h3 : m * (x / m) = x := by field_simp
    linarith
  · have h1 : x / m - 1 < ⌊x / m⌋ := Int.sub_one_lt_floor _
    have h2 : m * (x / m - 1) < m * (⌊x / m⌋ : ℝ) := by
      exact mul_lt_mul_of_pos_left h1 hm
    have h3 : m * (x / m - 1) = x - m := by field_simp
    linarith

/-- C6: for every quaternion input, each of the three angles returned by
`quat2euler` lies in the half-open interval `[0, 2π)`. -/
theorem C6_quat2euler_range (q : Quat ℝ) :
    (0 ≤ (quat2euler q).1 ∧ (quat2euler q).1 < 2 * Real.pi) ∧
      (0 ≤ (quat2euler q).2.1 ∧ (quat2euler q).2.1 < 2 * Real.pi) ∧
      (0 ≤ (quat2euler q).2.2 ∧ (quat2euler q).2.2 < 2 * Real.pi) := by
  have hm : (0 : ℝ) < 2 * Real.pi := by positivity
  unfold quat2euler
  exact ⟨fmod_nonneg_lt _ _ hm, fmod_nonneg_lt _ _ hm, fmod_nonneg_lt _ _ hm⟩

section ProjectionDefs

open Classical in
/-- `frustum(left, right, bottom, top, znear, zfar)`: `none` models the
`assert` failures, otherwise the source's view-frustum matrix. -/
noncomputable def frustum (left right bottom top znear zfar : ℝ) : Option (Mat4 ℝ) :=
  if right = left ∨ bottom = top ∨ znear = zfar then none
  else some
    !![2 * znear / (right - left), 0, 0, 0;
       0, 2 * znear / (top - bottom), 0, 0;
       (right + left) / (right - left), (top + bottom) / (top - bottom),
         -(zfar + znear) / (zfar - znear), -1;
       0, 0, -2 * znear * zfar / (zfar - znear), 0]

open Classical in
/-- `ortho(left, right, bottom, top, znear, zfar)`. -/
noncomputable def ortho (left right bottom top znear zfar : ℝ) : Option (Mat4 ℝ) :=
  if right = left ∨ bottom = top ∨ znear = zfar then none
  else some
    !![2 / (right - left), 0, 0, 0;
       0, 2 / (top - bottom), 0, 0;
       0, 0, -2 / (zfar - znear), 0;
       -(right + left) / (right - left), -(top + bottom) / (top - bottom),
         -(zfar + znear) / (zfar - znear), 1]

open Classical in
/-- `perspective(fovy, aspect, znear, zfar)`: symmetric frustum derived from
the vertical field of view in degrees. -/
noncomputable def perspective (fovy aspect znear zfar : ℝ) : Option (Mat4 ℝ) :=
  if znear = zfar then none
  else
    let h := Real.tan (fovy / 360 * Real.pi) * znear
    let w := h * aspect
    frustum (-w) w (-h) h znear zfar

end ProjectionDefs

theorem frustum_none_iff (left right bottom top znear zfar : ℝ) :
    frustum left right bottom top znear zfar = none ↔
      right = left ∨ bottom = top ∨ znear = zfar := by
  unfold frustum
  split_ifs with h
  · simpa using h
  · simp [h]

/-- C7 counterexample: `perspective(0, 1, 1, 2)` fails even though its
clip-plane parameters are non-degenerate (`znear = 1 ≠ 2 = zfar`), because
`tan(0) = 0` collapses the derived half-extents, contradicting the claim that
a matrix is returned for every non-degenerate input. -/
theorem C7_counterexample :
    perspective 0 1 1 2 = none ∧ (1 : ℝ) ≠ 2 := by
  constructor
  · unfold perspective
    rw [if_neg (by norm_num)]
    rw [frustum_none_iff]
    norm_num [Real.tan_zero]
  · norm_num

/-- C7 amended: `frustum` and `ortho` fail exactly on degenerate clip planes
(`left = right`, `bottom = top` or `znear = zfar`) and return a `4×4` matrix
otherwise; `perspective` fails exactly when `znear = zfar` or the derived
half-height `tan(fovy·π/360)·znear` is zero or `aspect` is zero, and returns a
matrix otherwise. -/
theorem C7_projection_rejection_amended :
    (∀ left right bottom top znear zfar : ℝ,
        frustum left right bottom top znear zfar = none ↔
          right = left ∨ bottom = top ∨ znear = zfar) ∧
      (∀ left right bottom top znear zfar : ℝ,
        ortho left right bottom top znear zfar = none ↔
          right = left ∨ bottom = top ∨ znear = zfar) ∧
      (∀ fovy aspect znear zfar : ℝ,
        perspective fovy aspect znear zfar = none ↔
          znear = zfar ∨ Real.tan (fovy / 360 * Real.pi) * znear = 0 ∨ aspect = 0) := by
  refine ⟨frustum_none_iff, ?_, ?_⟩
  · intro left right bottom top znear zfar
    unfold ortho
    split_ifs with h
    · simpa using h
    · simp [h]
  · intro fovy aspect znear zfar
    unfold perspective
    split_ifs with h
    · simp [h]
    · rw [frustum_none_iff]
      have e1 : ∀ a : ℝ, a = -a ↔ a = 0 := fun a => by constructor <;> intro <;> linarith
      have e2 : ∀ a : ℝ, -a = a ↔ a = 0 := fun a => by constructor <;> intro <;> linarith
      rw [e1, e2, mul_eq_zero]
      constructor
      · rintro ((hh | ha) | hh | hz)
        · exact Or.inr (Or.inl hh)
        · exact Or.inr (Or.inr ha)
        · exact Or.inr (Or.inl hh)
        · exact absurd hz h
      · rintro (hz | hh | ha)
        · exact absurd hz h
        · exact Or.inl (Or.inl hh)
        · exact Or.inl (Or.inr ha)

section RightAngle

/-- L1 norm `th.abs(quat).sum()` used by `check_quat_right_angle`. -/
noncomputable def quatL1 (q : Quat ℝ) : ℝ :=
  |q.x| + |q.y| + |q.z| + |q.w|

/-- The hard-coded reference L1 norms `[1.0, 1.414, 2.0]` of the source. -/
noncomputable def reference_norms : Fin 3 → ℝ :=
  ![1, 1.414, 2]

/-- `check_quat_right_angle(quat, atol)`: true when the L1 norm of `|quat|` is
within `atol` of one of the three reference values. -/
noncomputable def check_quat_right_angle (quat : Quat ℝ) (atol : ℝ) : Prop :=
  ∃ i : Fin 3, |quatL1 quat - reference_norms i| < atol

end RightAngle

theorem sqrt_two_bounds : 1.4142 < Real.sqrt 2 ∧ Real.sqrt 2 < 1.4143 := by
  have hs : Real.sqrt 2 ^ 2 = 2 := Real.sq_sqrt (by norm_num)
  have hnn : (0 : ℝ) ≤ Real.sqrt 2 := Real.sqrt_nonneg 2
  constructor <;> nlinarith [hs, hnn]

/-- C9 counterexample: at `q = (√½, √½, 0, 0)` (L1 norm exactly `√2`) and
`atol = 1e-4`, the code returns false — `|√2 - 1.414| ≈ 2.14e-4 ≥ atol` — but
the claim's reference set `{1.0, √2, 2.0}` predicts true, so the claimed
equivalence fails at this input. -/
theorem C9_counterexample :
    ¬ (check_quat_right_angle ⟨Real.sqrt (1 / 2), Real.sqrt (1 / 2), 0, 0⟩ 1e-4 ↔
        (|quatL1 ⟨Real.sqrt (1 / 2), Real.sqrt (1 / 2), 0, 0⟩ - 1| < 1e-4 ∨
          |quatL1 ⟨Real.sqrt (1 / 2), Real.sqrt (1 / 2), 0, 0⟩ - Real.sqrt 2| < 1e-4 ∨
          |quatL1 ⟨Real.sqrt (1 / 2), Real.sqrt (1 / 2), 0, 0⟩ - 2| < 1e-4)) := by
  intro hiff
  have hun : (0 : ℝ) ≤ Real.sqrt (1 / 2) := Real.sqrt_nonneg _
  have hu : Real.sqrt (1 / 2) ^ 2 = 1 / 2 := Real.sq_sqrt (by norm_num)
  have h2u : 2 * Real.sqrt (1 / 2) = Real.sqrt 2 := by
    have h4 : (2 * Real.sqrt (1 / 2)) ^ 2 = 2 := by nlinarith [hu]
    calc 2 * Real.sqrt (1 / 2) = Real.sqrt ((2 * Real.sqrt (1 / 2)) ^ 2) :=
          (Real.sqrt_sq (by positivity)).symm
      _ = Real.sqrt 2 := by rw [h4]
  have hL1 : quatL1 ⟨Real.sqrt (1 / 2), Real.sqrt (1 / 2), 0, 0⟩ = Real.sqrt 2 := by
    unfold quatL1
    dsimp only
    rw [abs_of_nonneg hun, abs_zero]
    linarith [h2u]
  obtain ⟨hlo, hhi⟩ := sqrt_two_bounds
  have hrhs := hiff.mpr (Or.inr (Or.inl (by rw [hL1, sub_self, abs_zero]; norm_num)))
  obtain ⟨i, hi⟩ := hrhs
  rw [hL1] at hi
  fin_cases i <;> simp [reference_norms, abs_lt] at hi <;>
    linarith [hi.1, hi.2, hlo, hhi]

/-- C9 amended: `check_quat_right_angle(q, atol)` holds exactly when the L1
norm of `|q|` is within `atol` of one of the hard-coded reference values
`1.0`, `1.414` (the source's decimal approximation of `√2`) or `2.0`. -/
theorem C9_right_angle_amended (quat : Quat ℝ) (atol : ℝ) :
    check_quat_right_angle quat atol ↔
      (|quatL1 quat - 1| < atol ∨ |quatL1 quat - 1.414| < atol ∨
        |quatL1 quat - 2| < atol) := by
  unfold check_quat_right_angle
  constructor
  · rintro ⟨i, hi⟩
    fin_cases i <;> simp [reference_norms] at hi <;> tauto
  · rintro (h | h | h)
    · exact ⟨0, by simpa [reference_norms] using h⟩
    · exact ⟨1, by simpa [reference_norms] using h⟩
    · exact ⟨2, by simpa [reference_norms] using h⟩

instance {K : Type} [LinearOrderedField K] : Add (Quat K) :=
  ⟨fun a b => ⟨a.x + b.x, a.y + b.y, a.z + b.z, a.w + b.w⟩⟩

section SlerpDefs

/-- `unit_vector` as executed on the `(N,4)`-reshaped quaternions inside
`quat_slerp`: division by `length + 1e-8` (the epsilon guard of the
multi-dimensional code path). -/
noncomputable def unit_vector (q : Quat ℝ) : Quat ℝ :=
  let length := Real.sqrt (q.x * q.x + q.y * q.y + q.z * q.z + q.w * q.w)
  ⟨q.x / (length + 1e-8), q.y / (length + 1e-8),
   q.z / (length + 1e-8), q.w / (length + 1e-8)⟩

/-- `dot(v1, v2, dim=-1)` specialized to quaternion 4-vectors. -/
def dot {K : Type} [LinearOrderedField K] (v1 v2 : Quat K) : K :=
  v1.x * v2.x + v1.y * v2.y + v1.z * v2.z + v1.w * v2.w

open Classical in
/-- `quat_slerp(quat0, quat1, frac, shortestpath, eps)`: normalization,
shortest-path flip, clipped `acos`, edge-case `where` cascade, exactly in the
order of the source. -/
noncomputable def quat_slerp (quat0 quat1 : Quat ℝ) (frac : ℝ)
    (shortestpath : Bool) (eps : ℝ) : Quat ℝ :=
  let q0 := unit_vector quat0
  let q1 := unit_vector quat1
  let d0 := dot q0 q1
  let q1s := if shortestpath then (if d0 < 0 then -q1 else q1) else q1
  let d := if shortestpath then |d0| else d0
  let angle := Real.arccos (min 1 (max (-1) d))
  let isin := 1 / Real.sin angle
  let val : Quat ℝ :=
    (Real.sin ((1 - frac) * angle) * isin) • q0 + (Real.sin (frac * angle) * isin) • q1s
  if |(|d|) - 1| < eps ∨ |angle| < eps ∨ frac ≤ 0 then q0
  else if 1 ≤ frac then q1s
  else val

end SlerpDefs

/-- C5 counterexample: with `q0 = q1 = (0,0,0,1)` and `frac = 0`,
`quat_slerp` does not return `q0`: the `(N,4)` normalization path divides by
`‖q0‖ + 1e-8 = 1 + 1e-8`, so the returned `w`-component is `1/(1+1e-8) ≠ 1`. -/
theorem C5_counterexample :
    quat_slerp ⟨0, 0, 0, 1⟩ ⟨0, 0, 0, 1⟩ 0 true 1e-15 ≠ ⟨0, 0, 0, 1⟩ := by
  unfold quat_slerp
  rw [if_pos (Or.inr (Or.inr le_rfl))]
  unfold unit_vector
  intro h
  have hw := congrArg Quat.w h
  dsimp only at hw
  rw [show (0 : ℝ) * 0 + 0 * 0 + 0 * 0 + 1 * 1 = 1 by norm_num, Real.sqrt_one] at hw
  norm_num at hw

/-- C5 amended endpoint policy (with the default `shortestpath = true` and
`eps = 1e-15`): for `frac ≤ 0`, or when the near-identical / near-zero-angle
guards fire, `quat_slerp` returns `q0` normalized by `‖q0‖ + 1e-8` (not `q0`
itself); for `frac ≥ 1` outside those guards it returns the normalized `q1`,
negated when `dot(q0̂, q1̂) < 0` (the shortest-path flip). -/
theorem C5_quat_slerp_endpoints (quat0 quat1 : Quat ℝ) (frac : ℝ) :
    (frac ≤ 0 → quat_slerp quat0 quat1 frac true 1e-15 = unit_vector quat0) ∧
      ((|(|dot (unit_vector quat0) (unit_vector quat1)|) - 1| < 1e-15 ∨
          |Real.arccos (min 1 (max (-1) (|dot (unit_vector quat0) (unit_vector quat1)|)))| <
            1e-15) →
        quat_slerp quat0 quat1 frac true 1e-15 = unit_vector quat0) ∧
      (1 ≤ frac →
        ¬ |(|dot (unit_vector quat0) (unit_vector quat1)|) - 1| < 1e-15 →
        ¬ |Real.arccos (min 1 (max (-1) (|dot (unit_vector quat0) (unit_vector quat1)|)))| <
            1e-15 →
        quat_slerp quat0 quat1 frac true 1e-15 =
          (if dot (unit_vector quat0) (unit_vector quat1) < 0 then -(unit_vector quat1)
           else unit_vector quat1)) := by
  refine ⟨?_, ?_, ?_⟩
  · intro hf
    unfold quat_slerp
    rw [if_pos (Or.inr (Or.inr hf))]
  · intro hsmall
    unfold quat_slerp
    simp only [if_pos rfl, abs_abs, if_true]
    rcases hsmall with hs | hs
    · rw [if_pos (Or.inl (by simpa [abs_abs] using hs))]
    · rw [if_pos (Or.inr (Or.inl (by simpa using hs)))]
  · intro hf hd ha
    unfold quat_slerp
    simp only [if_true]
    rw [if_neg, if_pos hf]
    push_neg
    refine ⟨by simpa [abs_abs] using hd, by simpa using ha, by linarith⟩

/-- C5 witness: at `q0 = (0,0,0,1)`, `q1 = (1,0,0,0)` and `frac = 1` the
normalized dot product is `0`, the guards do not fire (the clipped angle is
`π/2`), and the returned value is the normalized `q1`. -/
theorem C5_quat_slerp_endpoints_witness :
    (1 : ℝ) ≤ 1 ∧
      ¬ |(|dot (unit_vector (⟨0, 0, 0, 1⟩ : Quat ℝ)) (unit_vector ⟨1, 0, 0, 0⟩)|) - 1| <
          1e-15 ∧
      ¬ |Real.arccos (min 1 (max (-1)
            (|dot (unit_vector (⟨0, 0, 0, 1⟩ : Quat ℝ)) (unit_vector ⟨1, 0, 0, 0⟩)|)))| <
          1e-15 ∧
      quat_slerp (⟨0, 0, 0, 1⟩ : Quat ℝ) ⟨1, 0, 0, 0⟩ 1 true 1e-15 =
        (if dot (unit_vector (⟨0, 0, 0, 1⟩ : Quat ℝ)) (unit_vector ⟨1, 0, 0, 0⟩) < 0 then
          -(unit_vector (⟨1, 0, 0, 0⟩ : Quat ℝ))
         else unit_vector (⟨1, 0, 0, 0⟩ : Quat ℝ)) := by
  have hdot : dot (unit_vector (⟨0, 0, 0, 1⟩ : Quat ℝ)) (unit_vector ⟨1, 0, 0, 0⟩) = 0 := by
    unfold unit_vector dot
    norm_num
  have h2 : ¬ |(|dot (unit_vector (⟨0, 0, 0, 1⟩ : Quat ℝ)) (unit_vector ⟨1, 0, 0, 0⟩)|) - 1| <
      1e-15 := by
    rw [hdot]
    norm_num
  have h3 : ¬ |Real.arccos (min 1 (max (-1)
      (|dot (unit_vector (⟨0, 0, 0, 1⟩ : Quat ℝ)) (unit_vector ⟨1, 0, 0, 0⟩)|)))| < 1e-15 := by
    rw [hdot, abs_zero]
    rw [show max (-1 : ℝ) 0 = 0 by norm_num, show min (1 : ℝ) 0 = 0 by norm_num,
      Real.arccos_zero]
    rw [abs_of_pos (by positivity)]
    intro hlt
    nlinarith [Real.pi_gt_three]
  exact ⟨le_refl 1, h2, h3,
    (C5_quat_slerp_endpoints ⟨0, 0, 0, 1⟩ ⟨1, 0, 0, 0⟩ 1).2.2 le_rfl h2 h3⟩

/-- Sanity cross-check of the two Hamilton-product transcriptions: the
factored `quat_mul` agrees with the componentwise `quat_multiply`. -/
theorem quat_mul_eq_quat_multiply {K : Type} [LinearOrderedField K] (a b : Quat K) :
    quat_mul a b = quat_multiply a b := by
  simp only [quat_mul, quat_multiply]
  rw [Quat.mk.injEq]
  refine ⟨by ring, by ring, by ring, by ring⟩
